import Mathlib

/-!
Verification development for the paper-trading algorithm runner
(`trading-engine` scheduled worker, `realtime` streaming engine and
`dashboard-api` metrics).  Python sources are shallowly embedded as
executable Lean definitions over `ℚ` (floats become rationals; the
`time.time()` clock becomes an explicit `now : ℚ` argument; HTTP and
database effects become explicit state passing with oracle inputs for
remote responses).
-/

namespace PaperTrading

/-! ## Association-list helpers (Python `dict` access) -/

/-- Lookup in an association list, first match wins (Python `d.get(k)`). -/
def alookup (k : String) : List (String × α) → Option α
  | [] => none
  | (k', v) :: rest => if k = k' then some v else alookup k rest

/-- Lookup with default (Python `d.get(k, d0)`). -/
def alookupD (k : String) (l : List (String × α)) (d0 : α) : α :=
  (alookup k l).getD d0

/-- Update or insert a key (Python `d[k] = v`). -/
def aset (k : String) (v : α) : List (String × α) → List (String × α)
  | [] => [(k, v)]
  | (k', v') :: rest => if k = k' then (k, v) :: rest else (k', v') :: aset k v rest

/-- SQL `UPDATE ... SET v WHERE key = k`: replace the value of every row
whose key matches; rows are never created. -/
def aupdate (k : String) (v : α) (l : List (String × α)) : List (String × α) :=
  l.map (fun e => if e.1 = k then (k, v) else e)

/-! ## Generic list helpers -/

/-- The last `cap` elements of a list (the contents of a
`collections.deque(maxlen := cap)` after appending the whole list). -/
def lastN (cap : ℕ) (l : List α) : List α :=
  l.drop (l.length - cap)

/-- Python slice `l[-k:]`.  For `k = 0` Python returns the whole list
(`l[-0:] = l[0:]`), otherwise the last `min k (length l)` elements. -/
def lastSlice (k : ℕ) (l : List α) : List α :=
  if k = 0 then l else l.drop (l.length - k)

/-- Differences of consecutive elements (`closes[i] - closes[i-1]`). -/
def diffs : List ℚ → List ℚ
  | a :: b :: rest => (b - a) :: diffs (b :: rest)
  | _ => []

/-- `statistics.mean`. -/
def listMean (l : List ℚ) : ℚ := l.sum / l.length

/-- The square of `statistics.stdev` (sample variance, Bessel-corrected).
The source stores the square root of this value; the root is irrational in
general so indicator entries carry the radicand symbolically. -/
def sampleVariance (l : List ℚ) : ℚ :=
  (l.map (fun x => (x - listMean l) ^ 2)).sum / ((l.length : ℚ) - 1)

/-! ## Performance metrics (`dashboard-api/src/dashboard_api/metrics.py`) -/

/-- One equity snapshot as consumed by the metrics functions
(`snap["equity"]`). -/
structure Snapshot where
  equity : ℚ
deriving DecidableEq

/-- The peak update of one `calculate_max_drawdown` iteration
(`if equity > peak: peak = equity`). -/
def mddPeak (peak e : ℚ) : ℚ := if e > peak then e else peak

/-- The max-drawdown update of one `calculate_max_drawdown` iteration,
applied after the peak update (`if peak > 0: ... if drawdown >
max_drawdown: ...`). -/
def mddMax (peak' m e : ℚ) : ℚ :=
  if peak' > 0 then
    if (peak' - e) / peak' > m then (peak' - e) / peak' else m
  else m

/-- The loop of `calculate_max_drawdown`: running peak and running
maximum drawdown over the remaining snapshots. -/
def mddLoop : List ℚ → ℚ → ℚ → ℚ
  | [], _, maxdd => maxdd
  | e :: rest, peak, maxdd =>
    mddLoop rest (mddPeak peak e) (mddMax (mddPeak peak e) maxdd e)

/-- `calculate_max_drawdown(snapshots)`: 0 for empty input, otherwise the
loop starting with `peak = snapshots[0]["equity"]`, `max_drawdown = 0`,
iterating over every snapshot (the first included). -/
def calculate_max_drawdown (snapshots : List Snapshot) : ℚ :=
  match snapshots with
  | [] => 0
  | s0 :: _ => mddLoop (snapshots.map Snapshot.equity) s0.equity 0

/-! ## Tick buffer and indicators (`realtime/src/indicators.py`) -/

/-- A single trade print held in the buffer. -/
structure Tick where
  price : ℚ
  size : ℕ
  timestamp : ℚ
deriving DecidableEq

/-- An indicator value.  `num q` is the rational `q`; `sqrtOf v` stands
for the (possibly irrational) square root of `v`, produced by
`statistics.stdev` for the `std_{N}s` entries.  Claims in this
development depend only on which keys are present, never on the numeric
value of a standard deviation. -/
inductive IndValue
  | num (q : ℚ)
  | sqrtOf (q : ℚ)
deriving DecidableEq

/-- `TickBuffer._prune`: pop ticks from the front while they are older
than `max_age_seconds` relative to `now`. -/
def pruneTicks (maxAge : ℚ) (now : ℚ) (buffer : List Tick) : List Tick :=
  buffer.dropWhile (fun t => decide (t.timestamp < now - maxAge))

/-- `TickBuffer.add`: append a tick, then prune.  The buffer for a fresh
symbol starts empty. -/
def addTick (maxAge : ℚ) (now : ℚ) (price : ℚ) (size : ℕ) (ts : ℚ)
    (buffer : List Tick) : List Tick :=
  pruneTicks maxAge now (buffer ++ [⟨price, size, ts⟩])

/-- `TickBuffer._calc_momentum`: % change from the oldest tick inside the
window to the last tick; `none` when no tick is inside the window or the
old price is 0. -/
def calcMomentum (buffer : List Tick) (now : ℚ) (seconds : ℕ) : Option ℚ :=
  let cutoff := now - (seconds : ℚ)
  match buffer.find? (fun t => decide (cutoff ≤ t.timestamp)) with
  | none => none
  | some oldT =>
    if oldT.price = 0 then none
    else
      match buffer.getLast? with
      | none => none
      | some lastT => some ((lastT.price - oldT.price) / oldT.price * 100)

/-- `TickBuffer._get_prices_in_window`. -/
def pricesInWindow (buffer : List Tick) (now : ℚ) (seconds : ℕ) : List ℚ :=
  (buffer.filter (fun t => decide (now - (seconds : ℚ) ≤ t.timestamp))).map Tick.price

/-- `TickBuffer._calc_vwap`: `none` when total volume is 0. -/
def calcVwap (buffer : List Tick) : Option ℚ :=
  let totalValue := (buffer.map (fun t => t.price * (t.size : ℚ))).sum
  let totalVolume := (buffer.map (fun t => (t.size : ℚ))).sum
  if totalVolume = 0 then none else some (totalValue / totalVolume)

/-- The `momentum_{N}s` entries of `get_indicators` for one window. -/
def momentumEntry (buffer : List Tick) (now : ℚ) (seconds : ℕ) :
    List (String × IndValue) :=
  match calcMomentum buffer now seconds with
  | some m => [("momentum_" ++ toString seconds ++ "s", IndValue.num m)]
  | none => []

/-- The `mean_{N}s` / `std_{N}s` entries of `get_indicators` for one
window: emitted only when the window holds at least 5 prices. -/
def meanStdEntry (buffer : List Tick) (now : ℚ) (seconds : ℕ) :
    List (String × IndValue) :=
  let prices := pricesInWindow buffer now seconds
  if 5 ≤ prices.length then
    [("mean_" ++ toString seconds ++ "s", IndValue.num (listMean prices)),
     ("std_" ++ toString seconds ++ "s",
       if 1 < prices.length then IndValue.sqrtOf (sampleVariance prices)
       else IndValue.num 0)]
  else []

/-- `TickBuffer.get_indicators`: `{}` when the symbol has fewer than two
buffered ticks; otherwise `tick_count`, `last_price`, the momentum
entries for windows 5/10/15/30/60, the mean/std entries for windows
30/60/120, and `vwap`.  `if vwap:` in the source drops both `None` and a
0 value.  The source never prunes here: the window filters use the
hard-coded horizons only, and `vwap` ranges over the whole buffer. -/
def get_indicators (buffer : List Tick) (now : ℚ) : List (String × IndValue) :=
  if buffer.length < 2 then []
  else
    match buffer.getLast? with
    | none => []
    | some lastT =>
      [("tick_count", IndValue.num (buffer.length : ℚ)),
       ("last_price", IndValue.num lastT.price)]
      ++ ([5, 10, 15, 30, 60].flatMap fun s => momentumEntry buffer now s)
      ++ ([30, 60, 120].flatMap fun s => meanStdEntry buffer now s)
      ++ (match calcVwap buffer with
          | some v => if v = 0 then [] else [("vwap", IndValue.num v)]
          | none => [])

/-! ## Strategy family (`realtime/src/strategies/`) -/

/-- `SignalType`. -/
inductive SignalType
  | buy
  | sell
deriving DecidableEq

/-- A `Signal` dataclass.  `reason` strings keep the source's wording but
elide the Python float formatting of the embedded numbers. -/
structure Signal where
  type : SignalType
  symbol : String
  strategy_name : String
  reason : String
  price : ℚ
  timestamp : ℚ
deriving DecidableEq

/-- The configuration and parameters of a strategy instance, with the
per-variant `params` lookups already resolved (source defaults noted).
`cooldownSeconds` is hard-wired to 5 in `Strategy.__init__`; it is kept
as a field because `in_cooldown` reads it from the instance. -/
structure StratParams where
  name : String
  shortWindow : ℕ := 30       -- sma_crossover: short_window_seconds
  longWindow : ℕ := 120       -- sma_crossover: long_window_seconds
  period : ℕ := 14            -- rsi: period
  oversold : ℚ := 30          -- rsi
  overbought : ℚ := 70        -- rsi
  thresholdPct : ℚ := 1/20    -- momentum: threshold_pct
  exitThresholdPct : ℚ := 3/100 -- momentum: exit_threshold_pct
  lookbackSeconds : ℕ := 10   -- momentum
  windowSeconds : ℕ := 60     -- mean_reversion
  stdThreshold : ℚ := 2       -- mean_reversion
  exitThreshold : ℚ := 1/2    -- mean_reversion
  cooldownSeconds : ℚ := 5

/-- The mutable per-instance state of a strategy: `positions`,
`last_signal_time`, `prev_short_above` (SMA crossover), the per-symbol
price deques (RSI), and the `bought` set (buy-and-hold). -/
structure StratState where
  positions : List (String × ℚ)
  lastSignalTime : List (String × ℚ)
  prevShortAbove : List (String × Bool)
  rsiPrices : List (String × List ℚ)
  bought : List String
deriving DecidableEq

/-- The state right after `__init__`: every container empty. -/
def initStratState : StratState :=
  { positions := [], lastSignalTime := [], prevShortAbove := [],
    rsiPrices := [], bought := [] }

/-- `Strategy.has_position`. -/
def hasPosition (st : StratState) (symbol : String) : Bool :=
  decide (0 < alookupD symbol st.positions 0)

/-- `Strategy.in_cooldown`: `time.time() - last_signal_time.get(symbol, 0)
< cooldown_seconds`. -/
def inCooldown (p : StratParams) (st : StratState) (symbol : String) (now : ℚ) : Bool :=
  decide (now - alookupD symbol st.lastSignalTime 0 < p.cooldownSeconds)

/-- `Strategy.record_signal`. -/
def recordSignal (st : StratState) (symbol : String) (now : ℚ) : StratState :=
  { st with lastSignalTime := aset symbol now st.lastSignalTime }

/-- `Strategy._make_signal`. -/
def makeSignal (p : StratParams) (ty : SignalType) (symbol : String)
    (price : ℚ) (reason : String) (now : ℚ) : Signal :=
  { type := ty, symbol := symbol, strategy_name := p.name,
    reason := reason, price := price, timestamp := now }

/-- `SMACrossoverStrategy.on_tick`.  Note the source order: the cooldown
check runs before `prev_short_above` is written, so a call in cooldown
leaves the crossover state untouched. -/
def smaOnTick (p : StratParams) (st : StratState) (symbol : String)
    (price : ℚ) (inds : List (String × ℚ)) (now : ℚ) :
    Option Signal × StratState :=
  match alookup ("mean_" ++ toString p.shortWindow ++ "s") inds,
        alookup ("mean_" ++ toString p.longWindow ++ "s") inds with
  | some shortSma, some longSma =>
    if inCooldown p st symbol now then (none, st)
    else
      let shortAbove : Bool := decide (shortSma > longSma)
      let prevState := alookup symbol st.prevShortAbove
      let st1 := { st with prevShortAbove := aset symbol shortAbove st.prevShortAbove }
      match prevState with
      | none => (none, st1)
      | some prev =>
        if shortAbove && !prev && !hasPosition st symbol then
          (some (makeSignal p SignalType.buy symbol price "SMA crossover" now),
           recordSignal st1 symbol now)
        else if !shortAbove && prev && hasPosition st symbol then
          (some (makeSignal p SignalType.sell symbol price "SMA crossunder" now),
           recordSignal st1 symbol now)
        else (none, st1)
  | _, _ => (none, st)

/-- `RSIStrategy._calc_rsi`: append the price to the symbol's
`deque(maxlen = period + 1)`, return `None` until the deque is full,
otherwise the simple-mean RSI over the last `period` differences. -/
def rsiCalc (p : StratParams) (st : StratState) (symbol : String)
    (price : ℚ) : Option ℚ × StratState :=
  let ring0 := (alookup symbol st.rsiPrices).getD []
  let ring := lastN (p.period + 1) (ring0 ++ [price])
  let st' := { st with rsiPrices := aset symbol ring st.rsiPrices }
  if ring.length < p.period + 1 then (none, st')
  else
    let changes := diffs ring
    let gains := changes.map fun c => if 0 < c then c else 0
    let losses := changes.map fun c => if 0 < c then 0 else -c
    let avgGain := (lastSlice p.period gains).sum / (p.period : ℚ)
    let avgLoss := (lastSlice p.period losses).sum / (p.period : ℚ)
    if avgLoss = 0 then (some 100, st')
    else (some (100 - 100 / (1 + avgGain / avgLoss)), st')

/-- `RSIStrategy.on_tick`.  `_calc_rsi` runs (and mutates the price
deque) before any cooldown or threshold check. -/
def rsiOnTick (p : StratParams) (st : StratState) (symbol : String)
    (price : ℚ) (_inds : List (String × ℚ)) (now : ℚ) :
    Option Signal × StratState :=
  match rsiCalc p st symbol price with
  | (none, st1) => (none, st1)
  | (some rsi, st1) =>
    if inCooldown p st1 symbol now then (none, st1)
    else if decide (rsi < p.oversold) && !hasPosition st1 symbol then
      (some (makeSignal p SignalType.buy symbol price "RSI oversold" now),
       recordSignal st1 symbol now)
    else if decide (rsi > p.overbought) && hasPosition st1 symbol then
      (some (makeSignal p SignalType.sell symbol price "RSI overbought" now),
       recordSignal st1 symbol now)
    else (none, st1)

/-- `MomentumStrategy.on_tick`. -/
def momentumOnTick (p : StratParams) (st : StratState) (symbol : String)
    (price : ℚ) (inds : List (String × ℚ)) (now : ℚ) :
    Option Signal × StratState :=
  match alookup ("momentum_" ++ toString p.lookbackSeconds ++ "s") inds with
  | none => (none, st)
  | some momentum =>
    if inCooldown p st symbol now then (none, st)
    else if decide (momentum > p.thresholdPct) && !hasPosition st symbol then
      (some (makeSignal p SignalType.buy symbol price "Momentum" now),
       recordSignal st symbol now)
    else if decide (momentum < -p.exitThresholdPct) && hasPosition st symbol then
      (some (makeSignal p SignalType.sell symbol price "Reversal" now),
       recordSignal st symbol now)
    else (none, st)

/-- `MeanReversionStrategy.on_tick`. -/
def meanRevOnTick (p : StratParams) (st : StratState) (symbol : String)
    (price : ℚ) (inds : List (String × ℚ)) (now : ℚ) :
    Option Signal × StratState :=
  match alookup ("mean_" ++ toString p.windowSeconds ++ "s") inds,
        alookup ("std_" ++ toString p.windowSeconds ++ "s") inds with
  | some mean, some std =>
    if std = 0 then (none, st)
    else if inCooldown p st symbol now then (none, st)
    else
      let z := (price - mean) / std
      if decide (z < -p.stdThreshold) && !hasPosition st symbol then
        (some (makeSignal p SignalType.buy symbol price "Oversold" now),
         recordSignal st symbol now)
      else if decide (|z| < p.exitThreshold) && hasPosition st symbol then
        (some (makeSignal p SignalType.sell symbol price "Reverted" now),
         recordSignal st symbol now)
      else if decide (z > p.stdThreshold) && hasPosition st symbol then
        (some (makeSignal p SignalType.sell symbol price "Take profit" now),
         recordSignal st symbol now)
      else (none, st)
  | _, _ => (none, st)

/-- `BuyAndHoldStrategy.on_tick`: no cooldown check, no
`record_signal`; one buy per symbol ever, enforced by the `bought`
set. -/
def buyHoldOnTick (p : StratParams) (st : StratState) (symbol : String)
    (price : ℚ) (_inds : List (String × ℚ)) (now : ℚ) :
    Option Signal × StratState :=
  if symbol ∈ st.bought then (none, st)
  else if !hasPosition st symbol then
    (some (makeSignal p SignalType.buy symbol price "Buy and hold initial purchase" now),
     { st with bought := symbol :: st.bought })
  else (none, st)

/-- Feed a price series through `RSIStrategy._calc_rsi` for one symbol,
returning the value of the final call (`none` for an empty series)
together with the final state. -/
def rsiFeed (p : StratParams) (symbol : String) :
    StratState → List ℚ → Option ℚ × StratState
  | st, [] => (none, st)
  | st, [price] => rsiCalc p st symbol price
  | st, price :: price' :: rest =>
    rsiFeed p symbol (rsiCalc p st symbol price).2 (price' :: rest)

/-- The five strategy variants. -/
inductive StratKind
  | smaCrossover
  | rsi
  | momentum
  | meanReversion
  | buyAndHold
deriving DecidableEq

/-- `on_tick` dispatch. -/
def onTick (k : StratKind) (p : StratParams) (st : StratState) (symbol : String)
    (price : ℚ) (inds : List (String × ℚ)) (now : ℚ) :
    Option Signal × StratState :=
  match k with
  | .smaCrossover => smaOnTick p st symbol price inds now
  | .rsi => rsiOnTick p st symbol price inds now
  | .momentum => momentumOnTick p st symbol price inds now
  | .meanReversion => meanRevOnTick p st symbol price inds now
  | .buyAndHold => buyHoldOnTick p st symbol price inds now

/-- `on_bar` dispatch: only `BuyAndHoldStrategy` overrides the base
implementation (which returns `None` and leaves the state alone);
buy-and-hold re-runs `on_tick` on the bar close. -/
def onBar (k : StratKind) (p : StratParams) (st : StratState) (symbol : String)
    (close : ℚ) (inds : List (String × ℚ)) (now : ℚ) :
    Option Signal × StratState :=
  match k with
  | .buyAndHold => buyHoldOnTick p st symbol close inds now
  | _ => (none, st)

/-- One engine callback into a strategy: a trade tick or a bar close
(with `price` the bar close in the latter case). -/
structure StratCall where
  isBar : Bool
  symbol : String
  price : ℚ
  inds : List (String × ℚ)
  now : ℚ

/-- Run a strategy over a call sequence, collecting the emitted signals
in order. -/
def runCalls (k : StratKind) (p : StratParams) :
    StratState → List StratCall → StratState × List Signal
  | st, [] => (st, [])
  | st, c :: rest =>
    let r := if c.isBar then onBar k p st c.symbol c.price c.inds c.now
             else onTick k p st c.symbol c.price c.inds c.now
    let tail := runCalls k p r.2 rest
    (tail.1, (match r.1 with | some sig => [sig] | none => []) ++ tail.2)

/-- Timestamps of the signals emitted for one symbol, in emission order. -/
def emissionTimes (sigs : List Signal) (symbol : String) : List ℚ :=
  (sigs.filter (fun s => s.symbol = symbol)).map Signal.timestamp

/-- The tick prices fed to `on_tick` for one symbol (bar callbacks do not
reach `RSIStrategy._calc_rsi` since the base `on_bar` is not overridden). -/
def tickPricesFor (symbol : String) (calls : List StratCall) : List ℚ :=
  (calls.filter (fun c => !c.isBar && c.symbol = symbol)).map StratCall.price

/-! ## Order manager (`realtime/src/orders.py`) -/

/-- The safety configuration of an `OrderManager`. -/
structure OMConfig where
  maxPositionPct : ℚ
  maxOrdersPerMinute : ℕ
  cooldownSeconds : ℚ
deriving DecidableEq

/-- A broker-reported position as cached by `refresh_account`
(the fields `submit` reads). -/
structure BrokerPosition where
  qty : ℚ
  marketValue : ℚ
deriving DecidableEq

/-- A broker order response (the fields the engines read). -/
structure BrokerOrder where
  orderId : String
  filledAvgPrice : Option ℚ
deriving DecidableEq

/-- The mutable state of an `OrderManager`: the trailing-minute
submission times, the per-symbol last-order times, and the cached
account data. -/
structure OMState where
  ordersThisMinute : List ℚ
  lastOrderTime : List (String × ℚ)
  accountEquity : ℚ
  positions : List (String × BrokerPosition)
deriving DecidableEq

/-- `orders_this_minute` after the prune at the top of `submit`:
entries strictly younger than 60 seconds. -/
def prunedOrders (st : OMState) (now : ℚ) : List ℚ :=
  st.ordersThisMinute.filter (fun t => decide (now - t < 60))

/-- One call to `OrderManager.submit`, with the ambient clock and the
broker's HTTP behaviour supplied as oracle inputs: `httpOk = false`
models an HTTP error (status ≥ 400 or transport failure), `resp` is the
order JSON returned on success. -/
structure SubmitReq where
  signal : Signal
  dollarAmount : ℚ
  now : ℚ
  httpOk : Bool
  resp : BrokerOrder

/-- `OrderManager.submit`: prune the rate window, then in order - rate
limit, per-symbol cooldown, position-size check (buys, only when cached
equity is positive), sell-without-position check, HTTP submission.
Every rejection returns `None` having mutated only the pruned rate list;
success appends `now` to the rate list and stamps the symbol cooldown. -/
def submit (cfg : OMConfig) (st : OMState) (r : SubmitReq) :
    Option BrokerOrder × OMState :=
  let pruned := prunedOrders st r.now
  let stP := { st with ordersThisMinute := pruned }
  if cfg.maxOrdersPerMinute ≤ pruned.length then (none, stP)
  else if r.now - alookupD r.signal.symbol st.lastOrderTime 0 < cfg.cooldownSeconds then
    (none, stP)
  else
    let currentPositionValue :=
      match alookup r.signal.symbol st.positions with
      | some pos => pos.marketValue
      | none => 0
    let newPositionValue := currentPositionValue + r.dollarAmount
    if r.signal.type = SignalType.buy ∧ 0 < st.accountEquity ∧
        cfg.maxPositionPct < newPositionValue / st.accountEquity then
      (none, stP)
    else if r.signal.type = SignalType.sell ∧ alookup r.signal.symbol st.positions = none then
      (none, stP)
    else if r.httpOk then
      (some r.resp,
       { stP with
           ordersThisMinute := pruned ++ [r.now],
           lastOrderTime := aset r.signal.symbol r.now st.lastOrderTime })
    else (none, stP)

/-- Run a sequence of `submit` calls, collecting the submission times of
the successful ones in order. -/
def runSubmits (cfg : OMConfig) : OMState → List SubmitReq → OMState × List ℚ
  | st, [] => (st, [])
  | st, r :: rest =>
    let s := submit cfg st r
    let tail := runSubmits cfg s.2 rest
    (tail.1, (match s.1 with | some _ => [r.now] | none => []) ++ tail.2)

/-- Membership of a time in the trailing 60-second window ending at `w`,
with the same strict bound the source's prune uses (`now - t < 60`). -/
def inWindow (w t : ℚ) : Bool :=
  decide (w - t < 60) && decide (t ≤ w)

/-! ## Scheduled engine (`trading-engine/src/entry.py`) -/

/-- An OHLCV daily bar as returned by the Alpaca data API. -/
structure Bar where
  o : ℚ
  h : ℚ
  l : ℚ
  c : ℚ
  v : ℚ
deriving DecidableEq

/-- `calculate_rsi(bars, period)` from
`trading-engine/src/trading_engine/strategies.py` (duplicated in
`entry.py`): gains/losses over consecutive closes, simple means over the
last `period` differences, 100 when the average loss is 0.  The source
divides by `period`, so `period = 0` raises in Python; the embedding is
only used with `period ≥ 1`. -/
def calculate_rsi (bars : List Bar) (period : ℕ) : ℚ :=
  let closes := bars.map Bar.c
  let changes := diffs closes
  let gains := changes.map fun c => if 0 < c then c else 0
  let losses := changes.map fun c => if 0 < c then 0 else -c
  let avgGain := (lastSlice period gains).sum / (period : ℚ)
  let avgLoss := (lastSlice period losses).sum / (period : ℚ)
  if avgLoss = 0 then 100
  else 100 - 100 / (1 + avgGain / avgLoss)

/-- A row of the `positions` D1 table for one `(algorithm_id, symbol)`
key.  Scheduled-engine quantities are Python `int`s. -/
structure PositionRow where
  quantity : ℤ
  avg_entry_price : ℚ
deriving DecidableEq

/-- The slice of the D1 store the bookkeeping functions touch:
`positions` keyed by `algorithm_id ++ "/" ++ symbol` handled as a pair
key, and each algorithm's cash balance. -/
structure Store where
  positions : List ((String × String) × PositionRow)
  cash : List (String × ℚ)
deriving DecidableEq

/-- Lookup in a pair-keyed association list (first match wins). -/
def plookup (k : String × String) : List ((String × String) × α) → Option α
  | [] => none
  | (k', v) :: rest => if k = k' then some v else plookup k rest

/-- SQL `UPDATE positions SET v WHERE algorithm_id = ? AND symbol = ?`:
replace the value of every row whose key matches; rows are never
created. -/
def pupdate (k : String × String) (v : α)
    (l : List ((String × String) × α)) : List ((String × String) × α) :=
  l.map (fun e => if e.1 = k then (k, v) else e)

/-- SQL `DELETE FROM positions WHERE algorithm_id = ? AND symbol = ?`:
drop every row whose key matches. -/
def pdelAll (k : String × String)
    (l : List ((String × String) × α)) : List ((String × String) × α) :=
  l.filter (fun e => decide (e.1 ≠ k))

/-- `get_algorithm_cash`: 0 when the algorithm row is missing. -/
def getAlgorithmCash (store : Store) (algorithmId : String) : ℚ :=
  alookupD algorithmId store.cash 0

/-- The fill price `update_position_buy` books: `filled_avg_price` when
the broker reports one, else the close of the freshly fetched single
bar, else 0 when even the fallback bar list is empty. -/
def buyFillPrice (orderResult : BrokerOrder) (bars : List Bar) : ℚ :=
  match orderResult.filledAvgPrice with
  | some fp => fp
  | none =>
    match bars.getLast? with
    | some b => b.c
    | none => 0

/-- The fill price `update_position_sell` books: `filled_avg_price` when
present, else the `current_price` captured earlier in `submit_order`. -/
def sellFillPrice (orderResult : BrokerOrder) (currentPrice : ℚ) : ℚ :=
  match orderResult.filledAvgPrice with
  | some fp => fp
  | none => currentPrice

/-- `update_position_buy`: merge the bought quantity into the position
row (weighted-average entry price), create the row if absent, then
deduct `quantity * fill_price` from the algorithm's cash. -/
def update_position_buy (algorithmId symbol : String) (quantity : ℤ)
    (orderResult : BrokerOrder) (bars : List Bar) (store : Store) : Store :=
  let fillPrice := buyFillPrice orderResult bars
  let positions' :=
    match plookup (algorithmId, symbol) store.positions with
    | some existing =>
      let newQty := existing.quantity + quantity
      let oldValue := (existing.quantity : ℚ) * existing.avg_entry_price
      let newValue := (quantity : ℚ) * fillPrice
      let newAvg := if 0 < newQty then (oldValue + newValue) / (newQty : ℚ) else 0
      pupdate (algorithmId, symbol) ⟨newQty, newAvg⟩ store.positions
    | none =>
      store.positions ++ [((algorithmId, symbol), ⟨quantity, fillPrice⟩)]
  let cost := (quantity : ℚ) * fillPrice
  let newCash := getAlgorithmCash store algorithmId - cost
  { positions := positions', cash := aupdate algorithmId newCash store.cash }

/-- `update_position_sell`: when a row exists, decrement its quantity
(deleting the row when the result is ≤ 0) and add
`quantity * fill_price` to the algorithm's cash; a sell with no position
row changes nothing. -/
def update_position_sell (algorithmId symbol : String) (quantity : ℤ)
    (orderResult : BrokerOrder) (currentPrice : ℚ) (store : Store) : Store :=
  match plookup (algorithmId, symbol) store.positions with
  | none => store
  | some existing =>
    let newQty := existing.quantity - quantity
    let positions' :=
      if newQty ≤ 0 then pdelAll (algorithmId, symbol) store.positions
      else pupdate (algorithmId, symbol) ⟨newQty, existing.avg_entry_price⟩ store.positions
    let fillPrice := sellFillPrice orderResult currentPrice
    let proceeds := (quantity : ℚ) * fillPrice
    let newCash := getAlgorithmCash store algorithmId + proceeds
    { positions := positions', cash := aupdate algorithmId newCash store.cash }

/-- Observable store effects of one `on_scheduled` invocation. -/
inductive SchedEvent
  | snapshot (algorithmId : String) (trigger : String)
  | runAlgo (algorithmId : String)
deriving DecidableEq

/-- The control flow of `on_scheduled`, with the market clock and the
enabled-algorithm list as oracle inputs: when the market is closed the
handler returns immediately; when it is open, snapshots (trigger
"hourly") are created for every enabled algorithm at minute 0 of the
hour, and then every enabled algorithm runs. -/
def on_scheduled (isOpen : Bool) (minute : ℕ) (enabledAlgos : List String) :
    List SchedEvent × String :=
  if !isOpen then ([], "Market closed, skipping")
  else
    ((if minute = 0 then enabledAlgos.map (fun a => SchedEvent.snapshot a "hourly") else [])
      ++ enabledAlgos.map SchedEvent.runAlgo,
     "Trading engine run complete")

/-! ## Helper lemmas -/

theorem alookup_aset_same (k : String) (v : α) (l : List (String × α)) :
    alookup k (aset k v l) = some v := by
  induction l with
  | nil => simp [aset, alookup]
  | cons hd tl ih =>
    by_cases h : k = hd.1
    · simp [aset, alookup, h]
    · simp [aset, alookup, h, ih]

theorem alookup_aset_other {k k' : String} (h : k ≠ k') (v : α)
    (l : List (String × α)) : alookup k (aset k' v l) = alookup k l := by
  induction l with
  | nil => simp [aset, alookup, h]
  | cons hd tl ih =>
    by_cases h' : k' = hd.1
    · subst h'
      simp [aset, alookup, h, ih]
    · by_cases h'' : k = hd.1 <;> simp [aset, alookup, h', h'', ih]

theorem length_filter_mono {p q : α → Bool} {l : List α}
    (h : ∀ a ∈ l, p a = true → q a = true) :
    (l.filter p).length ≤ (l.filter q).length := by
  simp only [← List.countP_eq_length_filter]
  exact List.countP_mono_left h

theorem lastN_suffix (cap : ℕ) (l : List α) : lastN cap l <:+ l :=
  List.drop_suffix _ l

theorem lastN_length (cap : ℕ) (l : List α) :
    (lastN cap l).length = l.length - (l.length - cap) := by
  simp [lastN]

theorem lastN_reverse_def (cap : ℕ) (l : List α) :
    lastN cap l = (l.reverse.take cap).reverse := by
  rw [lastN, List.reverse_take, List.reverse_reverse, List.length_reverse]

theorem lastN_absorb (cap : ℕ) (a b : List α) :
    lastN cap (lastN cap a ++ b) = lastN cap (a ++ b) := by
  simp only [lastN_reverse_def, List.reverse_append, List.reverse_reverse,
    List.take_append_eq_append_take, List.take_take, List.length_take,
    List.length_reverse]
  congr 2
  congr 1
  exact min_eq_left (Nat.sub_le _ _)

theorem diffs_pos {l : List ℚ} (h : List.Chain' (· < ·) l) :
    ∀ c ∈ diffs l, 0 < c := by
  induction l with
  | nil => intro c hc; simp [diffs] at hc
  | cons a tl ih =>
    match tl with
    | [] => intro c hc; simp [diffs] at hc
    | b :: rest =>
      rw [List.chain'_cons] at h
      intro c hc
      rw [show diffs (a :: b :: rest) = (b - a) :: diffs (b :: rest) from rfl] at hc
      rcases List.mem_cons.mp hc with hc | hc
      · subst hc; linarith [h.1]
      · exact ih h.2 c hc

theorem lastSlice_subset (k : ℕ) (l : List α) : ∀ x ∈ lastSlice k l, x ∈ l := by
  intro x hx
  unfold lastSlice at hx
  split at hx
  · exact hx
  · exact List.mem_of_mem_drop hx

/-! ## C3: maximum drawdown -/

theorem mddMax_ge (p m e : ℚ) : m ≤ mddMax p m e := by
  unfold mddMax
  split_ifs <;> linarith

theorem mddMax_le_one {p m e : ℚ} (he : 0 ≤ e) (hm : m ≤ 1) :
    mddMax p m e ≤ 1 := by
  unfold mddMax
  split_ifs with h1 h2
  · exact div_le_one_of_le₀ (by linarith) (le_of_lt h1)
  · exact hm
  · exact hm

theorem mddMax_pos {p m e : ℚ} (hp : 0 < p) (he : e < p) (_hm : 0 ≤ m) :
    0 < mddMax p m e := by
  unfold mddMax
  rw [if_pos hp]
  split_ifs with h
  · exact div_pos (by linarith) hp
  · push_neg at h
    have := div_pos (by linarith : (0:ℚ) < p - e) hp
    linarith

theorem mddMax_self {m e : ℚ} (hm : 0 ≤ m) : mddMax e m e = m := by
  unfold mddMax
  have hz : (e - e) / e = 0 := by
    rw [sub_self, zero_div]
  split_ifs with h1 h2
  · rw [hz] at h2
    linarith
  · rfl
  · rfl

theorem mddPeak_eq_of_le {peak e : ℚ} (h : peak ≤ e) : mddPeak peak e = e := by
  unfold mddPeak
  split_ifs with h1
  · rfl
  · exact le_antisymm h (not_lt.mp h1)

theorem le_mddPeak_left (peak e : ℚ) : peak ≤ mddPeak peak e := by
  unfold mddPeak
  split_ifs <;> linarith

theorem le_mddPeak_right (peak e : ℚ) : e ≤ mddPeak peak e := by
  unfold mddPeak
  split_ifs <;> linarith

theorem mddLoop_ge (l : List ℚ) : ∀ peak m, m ≤ mddLoop l peak m := by
  induction l with
  | nil => intro peak m; simp [mddLoop]
  | cons e rest ih =>
    intro peak m
    rw [mddLoop]
    exact le_trans (mddMax_ge _ _ _) (ih _ _)

theorem mddLoop_le_one (l : List ℚ) :
    ∀ peak m, (∀ e ∈ l, 0 ≤ e) → m ≤ 1 → mddLoop l peak m ≤ 1 := by
  induction l with
  | nil => intro peak m _ hm; simpa [mddLoop] using hm
  | cons e rest ih =>
    intro peak m hl hm
    rw [mddLoop]
    exact ih _ _ (fun x hx => hl x (List.mem_cons_of_mem _ hx))
      (mddMax_le_one (hl e (List.mem_cons_self _ _)) hm)

theorem mddLoop_const_of_chain (l : List ℚ) :
    ∀ peak m, List.Chain' (· ≤ ·) (peak :: l) → 0 ≤ m → mddLoop l peak m = m := by
  induction l with
  | nil => intro peak m _ _; simp [mddLoop]
  | cons e rest ih =>
    intro peak m hch hm
    rw [List.chain'_cons] at hch
    rw [mddLoop, mddPeak_eq_of_le hch.1, mddMax_self hm]
    exact ih e m hch.2 hm

theorem mddLoop_pos_of_descent (l : List ℚ) :
    ∀ peak m, 0 ≤ m → (∀ e ∈ l, 0 ≤ e) → ¬ List.Chain' (· ≤ ·) l →
      0 < mddLoop l peak m := by
  induction l with
  | nil => intro peak m _ _ hch; exact absurd List.chain'_nil hch
  | cons a tl ih =>
    intro peak m hm hl hch
    match tl with
    | [] => exact absurd (List.chain'_singleton a) hch
    | b :: rest =>
      by_cases hab : a ≤ b
      · have hch' : ¬ List.Chain' (· ≤ ·) (b :: rest) := by
          intro h; exact hch (List.chain'_cons.mpr ⟨hab, h⟩)
        rw [mddLoop]
        exact ih _ _ (le_trans hm (mddMax_ge _ _ _))
          (fun x hx => hl x (List.mem_cons_of_mem _ hx)) hch'
      · push_neg at hab
        have ha : 0 ≤ a := hl a (List.mem_cons_self _ _)
        have hb : 0 ≤ b := hl b (List.mem_cons_of_mem _ (List.mem_cons_self _ _))
        rw [mddLoop, mddLoop]
        have hpa : a ≤ mddPeak peak a := le_mddPeak_right peak a
        have hp1 : 0 < mddPeak peak a := by linarith
        have hpb : ¬ (b > mddPeak peak a) := by push_neg; linarith
        have hpeak2 : mddPeak (mddPeak peak a) b = mddPeak peak a := if_neg hpb
        rw [hpeak2]
        have hm1 : 0 ≤ mddMax (mddPeak peak a) m a := le_trans hm (mddMax_ge _ _ _)
        have hm2 : 0 < mddMax (mddPeak peak a) (mddMax (mddPeak peak a) m a) b :=
          mddMax_pos hp1 (by linarith) hm1
        exact lt_of_lt_of_le hm2 (mddLoop_ge rest _ _)

/-- C3 [corrected]: for a non-empty snapshot sequence whose equities are
all non-negative, `calculate_max_drawdown` returns `d` with
`0 ≤ d ≤ 1`, and `d = 0` iff the equity series is non-decreasing.  The
original claim ranges over arbitrary snapshot sequences; a negative
equity drives the drawdown above 1 (see the counterexample), so the
non-negativity restriction is required. -/
theorem claim_C3 (snapshots : List Snapshot) (hne : snapshots ≠ [])
    (hpos : ∀ s ∈ snapshots, 0 ≤ s.equity) :
    0 ≤ calculate_max_drawdown snapshots ∧
    calculate_max_drawdown snapshots ≤ 1 ∧
    (calculate_max_drawdown snapshots = 0 ↔
      List.Chain' (· ≤ ·) (snapshots.map Snapshot.equity)) := by
  match snapshots with
  | [] => exact absurd rfl hne
  | s0 :: rest =>
    have hall : ∀ e ∈ (s0 :: rest).map Snapshot.equity, 0 ≤ e := by
      intro e he
      rcases List.mem_map.mp he with ⟨s, hs, hse⟩
      exact hse ▸ hpos s hs
    have hd : calculate_max_drawdown (s0 :: rest) =
        mddLoop ((s0 :: rest).map Snapshot.equity) s0.equity 0 := rfl
    refine ⟨hd ▸ le_trans (le_refl 0) (mddLoop_ge _ _ _),
      hd ▸ mddLoop_le_one _ _ _ hall (by norm_num), ?_⟩
    rw [hd]
    constructor
    · intro h0
      by_contra hch
      have hpos' := mddLoop_pos_of_descent ((s0 :: rest).map Snapshot.equity)
        s0.equity 0 (le_refl 0) hall hch
      rw [h0] at hpos'
      exact lt_irrefl 0 hpos'
    · intro hch
      exact mddLoop_const_of_chain _ _ _
        (List.chain'_cons.mpr ⟨le_refl s0.equity, by simpa using hch⟩) (le_refl 0)

/-- C3 counterexample: with a negative equity the drawdown exceeds 1
(`calculate_max_drawdown [10, -5] = 3/2`), refuting `0 ≤ d ≤ 1` as
claimed for arbitrary non-empty snapshot sequences. -/
theorem claim_C3_counterexample :
    ¬ (calculate_max_drawdown [⟨10⟩, ⟨-5⟩] ≤ 1) := by
  have : calculate_max_drawdown [⟨10⟩, ⟨-5⟩] = 3/2 := by
    norm_num [calculate_max_drawdown, mddLoop, mddPeak, mddMax]
  rw [this]
  norm_num

/-- C3 witness: the equity series `[10000, 11000, 9900]` is within
bounds and its drawdown is non-zero, matching its strict decrease. -/
theorem claim_C3_witness :
    0 ≤ calculate_max_drawdown [⟨10000⟩, ⟨11000⟩, ⟨9900⟩] ∧
    calculate_max_drawdown [⟨10000⟩, ⟨11000⟩, ⟨9900⟩] ≤ 1 ∧
    (calculate_max_drawdown [⟨10000⟩, ⟨11000⟩, ⟨9900⟩] = 0 ↔
      List.Chain' (· ≤ ·) ([⟨10000⟩, ⟨11000⟩, ⟨9900⟩].map Snapshot.equity)) :=
  claim_C3 [⟨10000⟩, ⟨11000⟩, ⟨9900⟩] (by simp)
    (by intro s hs; fin_cases hs <;> norm_num)

/-! ## C6: scheduled-engine market-closed control flow -/

/-- C6 [corrected]: `on_scheduled` creates the hourly snapshots only
when the market IS open: for an enabled algorithm, a
`snapshot _ "hourly"` event occurs iff the market is open and the minute
is 0 (and then before the algorithm runs), the algorithm runs iff the
market is open, and a closed market produces no store events at all.
The original claim places the minute-0 snapshot emission on the
market-closed path; the source returns from the closed branch before the
minute check (see the counterexample). -/
theorem claim_C6 (isOpen : Bool) (minute : ℕ) (algos : List String)
    (aid : String) (hmem : aid ∈ algos) :
    (SchedEvent.snapshot aid "hourly" ∈ (on_scheduled isOpen minute algos).1 ↔
      (isOpen = true ∧ minute = 0)) ∧
    (SchedEvent.runAlgo aid ∈ (on_scheduled isOpen minute algos).1 ↔ isOpen = true) ∧
    (isOpen = false → (on_scheduled isOpen minute algos).1 = []) := by
  cases isOpen with
  | false => simp [on_scheduled]
  | true => by_cases hm : minute = 0 <;> simp [on_scheduled, hm, hmem]

/-- C6 counterexample: market closed at minute 0 with one enabled
algorithm — the source emits no snapshot (it returns straight from the
closed branch), contradicting the claimed exception. -/
theorem claim_C6_counterexample :
    SchedEvent.snapshot "algo1" "hourly" ∉ (on_scheduled false 0 ["algo1"]).1 := by
  simp [on_scheduled]

/-- C6 witness: concrete instantiation at an open market, minute 0. -/
theorem claim_C6_witness :
    (SchedEvent.snapshot "algo1" "hourly" ∈ (on_scheduled true 0 ["algo1"]).1 ↔
      (true = true ∧ 0 = 0)) ∧
    (SchedEvent.runAlgo "algo1" ∈ (on_scheduled true 0 ["algo1"]).1 ↔ true = true) ∧
    (true = false → (on_scheduled true 0 ["algo1"]).1 = []) :=
  claim_C6 true 0 ["algo1"] "algo1" (by simp)

/-! ## C4: stale tick buffer -/

theorem calcMomentum_none_of_stale {buffer : List Tick} {now : ℚ}
    (hstale : ∀ t ∈ buffer, t.timestamp < now - 120) (s : ℕ)
    (hs : (s : ℚ) ≤ 120) : calcMomentum buffer now s = none := by
  have hfind : buffer.find? (fun t => decide (now - (s : ℚ) ≤ t.timestamp)) = none := by
    rw [List.find?_eq_none]
    intro t ht
    simp only [decide_eq_true_eq, not_le]
    have := hstale t ht
    linarith
  simp only [calcMomentum, hfind]

theorem pricesInWindow_nil_of_stale {buffer : List Tick} {now : ℚ}
    (hstale : ∀ t ∈ buffer, t.timestamp < now - 120) (s : ℕ)
    (hs : (s : ℚ) ≤ 120) : pricesInWindow buffer now s = [] := by
  have hfil : buffer.filter (fun t => decide (now - (s : ℚ) ≤ t.timestamp)) = [] := by
    rw [List.filter_eq_nil_iff]
    intro t ht
    simp only [decide_eq_true_eq, not_le]
    have := hstale t ht
    linarith
  simp only [pricesInWindow, hfil, List.map_nil]

/-- For a buffer whose ticks are all older than 120 s (the largest
hard-coded window) relative to `now`, every momentum and mean/std entry
vanishes and `get_indicators` reduces to the base entries plus `vwap`. -/
theorem get_indicators_of_stale (buffer : List Tick) (now : ℚ)
    (hstale : ∀ t ∈ buffer, t.timestamp < now - 120) :
    get_indicators buffer now =
      if buffer.length < 2 then []
      else
        match buffer.getLast? with
        | none => []
        | some lastT =>
          [("tick_count", IndValue.num (buffer.length : ℚ)),
           ("last_price", IndValue.num lastT.price)]
          ++ (match calcVwap buffer with
              | some v => if v = 0 then [] else [("vwap", IndValue.num v)]
              | none => []) := by
  unfold get_indicators
  split
  · rfl
  · cases hlast : buffer.getLast? with
    | none => rfl
    | some lastT =>
      have hm5 := calcMomentum_none_of_stale hstale 5 (by norm_num)
      have hm10 := calcMomentum_none_of_stale hstale 10 (by norm_num)
      have hm15 := calcMomentum_none_of_stale hstale 15 (by norm_num)
      have hm30 := calcMomentum_none_of_stale hstale 30 (by norm_num)
      have hm60 := calcMomentum_none_of_stale hstale 60 (by norm_num)
      have hw30 := pricesInWindow_nil_of_stale hstale 30 (by norm_num)
      have hw60 := pricesInWindow_nil_of_stale hstale 60 (by norm_num)
      have hw120 := pricesInWindow_nil_of_stale hstale 120 (by norm_num)
      simp only [List.flatMap_cons, List.flatMap_nil, momentumEntry, meanStdEntry,
        hm5, hm10, hm15, hm30, hm60, hw30, hw60, hw120, List.length_nil,
        List.append_nil, List.nil_append]
      norm_num

/-- C4 [corrected]: when every buffered tick is older than the largest
hard-coded indicator window (120 s, which is also the default
`max_age_seconds`) relative to `now`, `get_indicators` omits every
windowed indicator, but it does NOT return `{}` as claimed: with two or
more (stale) ticks it still reports `tick_count`, `last_price` and
(volume permitting) `vwap`, because the source prunes only inside `add`
and computes `vwap` over the whole buffer.  Only those three keys can
appear in the result. -/
theorem claim_C4 (buffer : List Tick) (now : ℚ)
    (hstale : ∀ t ∈ buffer, t.timestamp < now - 120) :
    ∀ k v, (k, v) ∈ get_indicators buffer now →
      k = "tick_count" ∨ k = "last_price" ∨ k = "vwap" := by
  intro k v hkv
  rw [get_indicators_of_stale buffer now hstale] at hkv
  split at hkv
  · simp at hkv
  · split at hkv
    · simp at hkv
    · rcases List.mem_append.mp hkv with h | h
      · simp only [List.mem_cons, List.not_mem_nil, or_false, Prod.mk.injEq] at h
        tauto
      · revert h
        split
        · split
          · intro h; simp at h
          · intro h
            simp only [List.mem_singleton, Prod.mk.injEq] at h
            exact Or.inr (Or.inr h.1)
        · intro h; simp at h

/-- C4 counterexample: a buffer holding two ticks both far older than
the 120 s default `max_age_seconds` relative to `now = 1000` (a
reachable state: the ticks were added fresh at times 0 and 1 and
`get_indicators` never prunes).  The result is `tick_count`,
`last_price` and `vwap` — not `{}` as claimed. -/
theorem claim_C4_counterexample :
    (∀ t ∈ ([⟨10, 1, 0⟩, ⟨11, 1, 1⟩] : List Tick), t.timestamp < 1000 - 120) ∧
    get_indicators [⟨10, 1, 0⟩, ⟨11, 1, 1⟩] 1000 =
      [("tick_count", IndValue.num 2), ("last_price", IndValue.num 11),
       ("vwap", IndValue.num (21/2))] := by
  have hst : ∀ t ∈ ([⟨10, 1, 0⟩, ⟨11, 1, 1⟩] : List Tick), t.timestamp < 1000 - 120 := by
    intro t ht
    fin_cases ht <;> norm_num
  refine ⟨hst, ?_⟩
  rw [get_indicators_of_stale _ _ hst]
  norm_num [List.getLast?, calcVwap]

/-- C4 witness: the amended statement applied to the concrete stale
buffer of the counterexample, at its actual `vwap` entry. -/
theorem claim_C4_witness :
    "vwap" = "tick_count" ∨ "vwap" = "last_price" ∨ "vwap" = "vwap" :=
  claim_C4 [⟨10, 1, 0⟩, ⟨11, 1, 1⟩] 1000
    (by intro t ht; fin_cases ht <;> norm_num)
    "vwap" (IndValue.num (21/2))
    (by
      have hst : ∀ t ∈ ([⟨10, 1, 0⟩, ⟨11, 1, 1⟩] : List Tick),
          t.timestamp < 1000 - 120 := by
        intro t ht
        fin_cases ht <;> norm_num
      rw [get_indicators_of_stale _ _ hst]
      norm_num [List.getLast?, calcVwap])


/-! ## C10 and C8: RSI ring and RSI = 100 -/

theorem suffix_append_right {α : Type _} {a b : List α} (u : List α)
    (h : a <:+ b) : a ++ u <:+ b ++ u := by
  obtain ⟨t, ht⟩ := h
  exact ⟨t, by rw [← List.append_assoc, ht]⟩

theorem lastN_idem (cap : ℕ) (a : List α) :
    lastN cap (lastN cap a) = lastN cap a := by
  have h := lastN_absorb cap a []
  simpa using h

theorem lastN_length_of_le {cap : ℕ} {l : List α} (h : cap ≤ l.length) :
    (lastN cap l).length = cap := by
  simp only [lastN, List.length_drop]
  omega

theorem rsiCalc_snd (p : StratParams) (st : StratState) (sym : String) (price : ℚ) :
    (rsiCalc p st sym price).2 =
      { st with rsiPrices :=
          (aset sym (lastN (p.period + 1) ((alookup sym st.rsiPrices).getD [] ++ [price]))
            st.rsiPrices) } := by
  simp only [rsiCalc]
  split_ifs <;> rfl

theorem rsiCalc_lastSignalTime (p : StratParams) (st : StratState) (sym : String)
    (price : ℚ) : (rsiCalc p st sym price).2.lastSignalTime = st.lastSignalTime := by
  rw [rsiCalc_snd]

theorem rsiOnTick_snd_rsiPrices (p : StratParams) (st : StratState) (sym : String)
    (price : ℚ) (inds : List (String × ℚ)) (now : ℚ) :
    (rsiOnTick p st sym price inds now).2.rsiPrices =
      aset sym (lastN (p.period + 1) ((alookup sym st.rsiPrices).getD [] ++ [price]))
        st.rsiPrices := by
  have h2 := congrArg (fun s => s.rsiPrices) (rsiCalc_snd p st sym price)
  unfold rsiOnTick
  rcases h : rsiCalc p st sym price with ⟨o, st1⟩
  rw [h] at h2
  simp only at h2
  cases o with
  | none => simpa using h2
  | some rsi =>
    dsimp only
    split_ifs <;> simpa [recordSignal] using h2

theorem runCalls_rsi_ring (p : StratParams) (symbol : String) :
    ∀ (calls : List StratCall) (st : StratState),
      lastN (p.period + 1) ((alookup symbol st.rsiPrices).getD []) =
        (alookup symbol st.rsiPrices).getD [] →
      (alookup symbol (runCalls .rsi p st calls).1.rsiPrices).getD []
        = lastN (p.period + 1)
            ((alookup symbol st.rsiPrices).getD [] ++ tickPricesFor symbol calls) := by
  intro calls
  induction calls with
  | nil =>
    intro st hst
    simpa [runCalls, tickPricesFor] using hst.symm
  | cons c rest ih =>
    intro st hst
    simp only [runCalls]
    by_cases hbar : c.isBar
    · have hob : onBar .rsi p st c.symbol c.price c.inds c.now = (none, st) := rfl
      have htp : tickPricesFor symbol (c :: rest) = tickPricesFor symbol rest := by
        simp [tickPricesFor, hbar]
      rw [if_pos hbar, hob, htp]
      exact ih st hst
    · have hot : (if c.isBar then onBar .rsi p st c.symbol c.price c.inds c.now
          else onTick .rsi p st c.symbol c.price c.inds c.now)
          = rsiOnTick p st c.symbol c.price c.inds c.now := by
        rw [if_neg hbar]; rfl
      rw [hot]
      have hrp := rsiOnTick_snd_rsiPrices p st c.symbol c.price c.inds c.now
      by_cases hsym : c.symbol = symbol
      · subst hsym
        have hring : (alookup c.symbol
            (rsiOnTick p st c.symbol c.price c.inds c.now).2.rsiPrices).getD [] =
            lastN (p.period + 1)
              ((alookup c.symbol st.rsiPrices).getD [] ++ [c.price]) := by
          rw [hrp, alookup_aset_same]
          rfl
        have htp : tickPricesFor c.symbol (c :: rest)
            = c.price :: tickPricesFor c.symbol rest := by
          simp [tickPricesFor, hbar]
        rw [htp]
        have hih := ih (rsiOnTick p st c.symbol c.price c.inds c.now).2
          (by rw [hring]; exact lastN_idem _ _)
        rw [hih, hring, lastN_absorb]
        congr 1
        simp
      · have hring : (alookup symbol
            (rsiOnTick p st c.symbol c.price c.inds c.now).2.rsiPrices).getD [] =
            (alookup symbol st.rsiPrices).getD [] := by
          rw [hrp, alookup_aset_other (fun hh => hsym hh.symm)]
        have htp : tickPricesFor symbol (c :: rest) = tickPricesFor symbol rest := by
          simp [tickPricesFor, hsym]
        have hih := ih (rsiOnTick p st c.symbol c.price c.inds c.now).2
          (by rw [hring]; exact hst)
        rw [htp, hih, hring]

/-- C10 [confirmed]: `RSIStrategy.on_tick` appends the tick price to the
per-symbol ring (`deque(maxlen = period + 1)`) on every call — `_calc_rsi`
runs before the cooldown and threshold checks — so after any call
sequence the ring holds exactly the most recent `period + 1` prices ever
passed to `on_tick` for the symbol (all of them while fewer have been
seen).  Bar callbacks do not touch the ring since `RSIStrategy` does not
override the base `on_bar`. -/
theorem claim_C10 (p : StratParams) (calls : List StratCall) (symbol : String) :
    (alookup symbol (runCalls .rsi p initStratState calls).1.rsiPrices).getD []
      = lastN (p.period + 1) (tickPricesFor symbol calls) := by
  have h := runCalls_rsi_ring p symbol calls initStratState
    (by simp [initStratState, alookup, lastN])
  simpa [initStratState, alookup] using h

theorem rsiCalc_100 (p : StratParams) (st : StratState) (sym : String) (price : ℚ)
    (hch : List.Chain' (· < ·) ((alookup sym st.rsiPrices).getD [] ++ [price]))
    (hlen : p.period + 1 ≤ ((alookup sym st.rsiPrices).getD [] ++ [price]).length) :
    (rsiCalc p st sym price).1 = some 100 := by
  have hchr : List.Chain' (· < ·)
      (lastN (p.period + 1) ((alookup sym st.rsiPrices).getD [] ++ [price])) :=
    hch.suffix (lastN_suffix _ _)
  have hlen' : (lastN (p.period + 1)
      ((alookup sym st.rsiPrices).getD [] ++ [price])).length = p.period + 1 :=
    lastN_length_of_le hlen
  have hloss : (lastSlice p.period
      ((diffs (lastN (p.period + 1) ((alookup sym st.rsiPrices).getD [] ++ [price]))).map
        fun c => if 0 < c then (0:ℚ) else -c)).sum = 0 := by
    apply List.sum_eq_zero
    intro x hx
    have hx' := lastSlice_subset _ _ x hx
    rcases List.mem_map.mp hx' with ⟨c, hc, hcx⟩
    have hcpos := diffs_pos hchr c hc
    rw [← hcx, if_pos hcpos]
  simp only [rsiCalc]
  rw [if_neg (by omega)]
  rw [if_pos (by rw [hloss, zero_div])]

theorem rsiFeed_100 (p : StratParams) (sym : String) :
    ∀ (prices : List ℚ) (st : StratState),
      lastN (p.period + 1) ((alookup sym st.rsiPrices).getD [])
        = (alookup sym st.rsiPrices).getD [] →
      List.Chain' (· < ·) ((alookup sym st.rsiPrices).getD [] ++ prices) →
      p.period + 1 ≤ ((alookup sym st.rsiPrices).getD [] ++ prices).length →
      prices ≠ [] →
      (rsiFeed p sym st prices).1 = some 100 := by
  intro prices
  induction prices with
  | nil => intro st _ _ _ hne; exact absurd rfl hne
  | cons a rest ih =>
    intro st hidem hch hlen _
    cases rest with
    | nil =>
      rw [show rsiFeed p sym st [a] = rsiCalc p st sym a from rfl]
      exact rsiCalc_100 p st sym a hch (by simpa using hlen)
    | cons b rest' =>
      rw [show rsiFeed p sym st (a :: b :: rest')
          = rsiFeed p sym (rsiCalc p st sym a).2 (b :: rest') from rfl]
      have hring : (alookup sym (rsiCalc p st sym a).2.rsiPrices).getD [] =
          lastN (p.period + 1) ((alookup sym st.rsiPrices).getD [] ++ [a]) := by
        rw [rsiCalc_snd]
        simp only
        rw [alookup_aset_same]
        rfl
      apply ih (rsiCalc p st sym a).2
      · rw [hring]
        exact lastN_idem _ _
      · rw [hring]
        refine hch.suffix ?_
        have h1 : lastN (p.period + 1) ((alookup sym st.rsiPrices).getD [] ++ [a])
            <:+ (alookup sym st.rsiPrices).getD [] ++ [a] := lastN_suffix _ _
        have h2 := suffix_append_right (b :: rest') h1
        simpa using h2
      · rw [hring]
        have hl1 : (lastN (p.period + 1)
            ((alookup sym st.rsiPrices).getD [] ++ [a])).length =
            ((alookup sym st.rsiPrices).getD [] ++ [a]).length -
              (((alookup sym st.rsiPrices).getD [] ++ [a]).length - (p.period + 1)) := by
          simp [lastN]
        simp only [List.length_append, List.length_cons] at hlen ⊢
        rw [hl1]
        simp only [List.length_append, List.length_singleton]
        omega
      · simp

/-- C8 [confirmed]: for every `period ≥ 1`, RSI over a strictly
increasing price series of length ≥ `period + 1` is exactly 100, both
for the batch `calculate_rsi` over daily bars and for the streaming
`RSIStrategy._calc_rsi` ring computation (fed price by price from a
fresh strategy state): every consecutive difference is a gain, so
`avg_loss = 0` and the `avg_loss == 0` branch returns 100.  (`period ≥ 1`
matters: the source divides by `period`, so `period = 0` would raise in
Python.) -/
theorem claim_C8 (period : ℕ) (_hper : 1 ≤ period) :
    (∀ bars : List Bar, List.Chain' (· < ·) (bars.map Bar.c) →
      period + 1 ≤ bars.length → calculate_rsi bars period = 100) ∧
    (∀ (p : StratParams) (sym : String) (prices : List ℚ), p.period = period →
      List.Chain' (· < ·) prices → period + 1 ≤ prices.length →
      (rsiFeed p sym initStratState prices).1 = some 100) := by
  constructor
  · intro bars hch hlen
    have hloss : (lastSlice period ((diffs (bars.map Bar.c)).map
        fun c => if 0 < c then (0:ℚ) else -c)).sum = 0 := by
      apply List.sum_eq_zero
      intro x hx
      rcases List.mem_map.mp (lastSlice_subset _ _ x hx) with ⟨c, hc, hcx⟩
      rw [← hcx, if_pos (diffs_pos hch c hc)]
    simp only [calculate_rsi]
    rw [if_pos (by rw [hloss, zero_div])]
  · intro p sym prices hp hch hlen
    apply rsiFeed_100 p sym prices initStratState
    · simp [initStratState, alookup, lastN]
    · simpa [initStratState, alookup] using hch
    · simpa [initStratState, alookup, hp] using hlen
    · intro hnil
      rw [hnil] at hlen
      simp at hlen

/-- C8 witness: period 2 over the strictly increasing closes `[1, 2, 3]`
in both engines. -/
theorem claim_C8_witness :
    calculate_rsi [⟨1, 1, 1, 1, 0⟩, ⟨2, 2, 2, 2, 0⟩, ⟨3, 3, 3, 3, 0⟩] 2 = 100 ∧
    (rsiFeed { name := "rsi", period := 2 } "AAPL" initStratState [1, 2, 3]).1
      = some 100 :=
  ⟨(claim_C8 2 (by norm_num)).1 [⟨1, 1, 1, 1, 0⟩, ⟨2, 2, 2, 2, 0⟩, ⟨3, 3, 3, 3, 0⟩]
      (by simp [List.chain'_cons]; norm_num) (by norm_num),
   (claim_C8 2 (by norm_num)).2 { name := "rsi", period := 2 } "AAPL" [1, 2, 3] rfl
      (by simp [List.chain'_cons]; norm_num) (by norm_num)⟩

/-! ## C5: SMA crossover state update -/

/-- C5 [corrected]: `prev_short_above[symbol]` is updated to
`short_sma > long_sma` on every call in which both mean indicators are
present AND the symbol is not in cooldown, regardless of whether a
signal is emitted.  The original claim omits the cooldown condition: the
source checks `in_cooldown` and returns before writing
`prev_short_above` (see the counterexample). -/
theorem claim_C5 (p : StratParams) (st : StratState) (symbol : String)
    (price : ℚ) (inds : List (String × ℚ)) (now : ℚ) (s l : ℚ)
    (hshort : alookup ("mean_" ++ toString p.shortWindow ++ "s") inds = some s)
    (hlong : alookup ("mean_" ++ toString p.longWindow ++ "s") inds = some l)
    (hcool : inCooldown p st symbol now = false) :
    alookup symbol (smaOnTick p st symbol price inds now).2.prevShortAbove
      = some (decide (s > l)) := by
  unfold smaOnTick
  rw [hshort, hlong, hcool]
  simp only [Bool.false_eq_true, if_false]
  cases hprev : alookup symbol st.prevShortAbove with
  | none => simp [alookup_aset_same]
  | some prev =>
    dsimp only
    split_ifs <;> simp [recordSignal, alookup_aset_same]

/-- A call in cooldown leaves an `SMACrossoverStrategy` completely
unchanged and yields no signal. -/
theorem smaOnTick_of_cooldown {p : StratParams} {st : StratState}
    {symbol : String} {price : ℚ} {inds : List (String × ℚ)} {now : ℚ}
    (h : inCooldown p st symbol now = true) :
    smaOnTick p st symbol price inds now = (none, st) := by
  unfold smaOnTick
  cases alookup ("mean_" ++ toString p.shortWindow ++ "s") inds <;>
    cases alookup ("mean_" ++ toString p.longWindow ++ "s") inds <;>
    simp [h]

/-- C5 counterexample: both means present (`10 > 5`), but the symbol is
in cooldown (last signal at 100, call at 102, cooldown 5 s), so the
source returns early and `prev_short_above` keeps its old value `false`
instead of being updated to `true`. -/
theorem claim_C5_counterexample :
    (10:ℚ) > 5 ∧
    alookup "AAPL"
      (smaOnTick { name := "sma" }
        { positions := [], lastSignalTime := [("AAPL", 100)],
          prevShortAbove := [("AAPL", false)], rsiPrices := [], bought := [] }
        "AAPL" 10 [("mean_30s", 10), ("mean_120s", 5)] 102).2.prevShortAbove
      = some false := by
  constructor
  · norm_num
  · rw [smaOnTick_of_cooldown]
    · rfl
    · simp only [inCooldown, alookupD, alookup, if_pos]
      norm_num

/-- C5 witness: out of cooldown, both means present, the crossover
state is written. -/
theorem claim_C5_witness :
    alookup "AAPL"
      (smaOnTick { name := "sma" }
        { positions := [], lastSignalTime := [], prevShortAbove := [],
          rsiPrices := [], bought := [] }
        "AAPL" 10 [("mean_30s", 10), ("mean_120s", 5)] 102).2.prevShortAbove
      = some (decide ((10:ℚ) > 5)) :=
  claim_C5 _ _ _ _ _ _ 10 5 rfl rfl
    (by simp only [inCooldown, alookupD, alookup]; norm_num)

/-! ## C7: per-strategy per-symbol signal cooldown -/

theorem cooldown_false_le {p : StratParams} {st : StratState} {symbol : String}
    {now : ℚ} (h : inCooldown p st symbol now = false) :
    p.cooldownSeconds ≤ now - alookupD symbol st.lastSignalTime 0 := by
  unfold inCooldown at h
  exact not_lt.mp (of_decide_eq_false h)

theorem inCooldown_congr {p : StratParams} {st st' : StratState} {symbol : String}
    {now : ℚ} (h : st'.lastSignalTime = st.lastSignalTime) :
    inCooldown p st' symbol now = inCooldown p st symbol now := by
  unfold inCooldown
  rw [h]

/-- Characterisation of one strategy call for the cooldown claim: either
no signal and `last_signal_time` untouched, or a signal stamped `now`
for the call's symbol, issued out of cooldown, with the symbol's
`last_signal_time` set to `now`. -/
def CooldownStep (p : StratParams) (st : StratState) (symbol : String)
    (now : ℚ) (r : Option Signal × StratState) : Prop :=
  (r.1 = none ∧ r.2.lastSignalTime = st.lastSignalTime) ∨
  (∃ sig, r.1 = some sig ∧ sig.symbol = symbol ∧ sig.timestamp = now ∧
    p.cooldownSeconds ≤ now - alookupD symbol st.lastSignalTime 0 ∧
    r.2.lastSignalTime = aset symbol now st.lastSignalTime)

theorem momentumOnTick_cooldownStep (p : StratParams) (st : StratState)
    (symbol : String) (price : ℚ) (inds : List (String × ℚ)) (now : ℚ) :
    CooldownStep p st symbol now (momentumOnTick p st symbol price inds now) := by
  unfold CooldownStep momentumOnTick
  cases alookup ("momentum_" ++ toString p.lookbackSeconds ++ "s") inds with
  | none => exact Or.inl ⟨rfl, rfl⟩
  | some momentum =>
    dsimp only
    cases hcb : inCooldown p st symbol now with
    | true =>
      rw [if_pos rfl]
      exact Or.inl ⟨rfl, rfl⟩
    | false =>
      rw [if_neg (by simp)]
      split_ifs with h1 h2
      · exact Or.inr ⟨_, rfl, rfl, rfl, cooldown_false_le hcb, rfl⟩
      · exact Or.inr ⟨_, rfl, rfl, rfl, cooldown_false_le hcb, rfl⟩
      · exact Or.inl ⟨rfl, rfl⟩

theorem meanRevOnTick_cooldownStep (p : StratParams) (st : StratState)
    (symbol : String) (price : ℚ) (inds : List (String × ℚ)) (now : ℚ) :
    CooldownStep p st symbol now (meanRevOnTick p st symbol price inds now) := by
  unfold CooldownStep meanRevOnTick
  cases alookup ("mean_" ++ toString p.windowSeconds ++ "s") inds with
  | none =>
    cases alookup ("std_" ++ toString p.windowSeconds ++ "s") inds <;>
      exact Or.inl ⟨rfl, rfl⟩
  | some mean =>
    cases alookup ("std_" ++ toString p.windowSeconds ++ "s") inds with
    | none => exact Or.inl ⟨rfl, rfl⟩
    | some std =>
      dsimp only
      by_cases hz : std = 0
      · rw [if_pos hz]
        exact Or.inl ⟨rfl, rfl⟩
      · rw [if_neg hz]
        cases hcb : inCooldown p st symbol now with
        | true =>
          rw [if_pos rfl]
          exact Or.inl ⟨rfl, rfl⟩
        | false =>
          rw [if_neg (by simp)]
          split_ifs with h1 h2 h3
          · exact Or.inr ⟨_, rfl, rfl, rfl, cooldown_false_le hcb, rfl⟩
          · exact Or.inr ⟨_, rfl, rfl, rfl, cooldown_false_le hcb, rfl⟩
          · exact Or.inr ⟨_, rfl, rfl, rfl, cooldown_false_le hcb, rfl⟩
          · exact Or.inl ⟨rfl, rfl⟩

theorem smaOnTick_cooldownStep (p : StratParams) (st : StratState)
    (symbol : String) (price : ℚ) (inds : List (String × ℚ)) (now : ℚ) :
    CooldownStep p st symbol now (smaOnTick p st symbol price inds now) := by
  unfold CooldownStep smaOnTick
  cases alookup ("mean_" ++ toString p.shortWindow ++ "s") inds with
  | none =>
    cases alookup ("mean_" ++ toString p.longWindow ++ "s") inds <;>
      exact Or.inl ⟨rfl, rfl⟩
  | some s =>
    cases alookup ("mean_" ++ toString p.longWindow ++ "s") inds with
    | none => exact Or.inl ⟨rfl, rfl⟩
    | some l =>
      dsimp only
      cases hcb : inCooldown p st symbol now with
      | true =>
        rw [if_pos rfl]
        exact Or.inl ⟨rfl, rfl⟩
      | false =>
        rw [if_neg (by simp)]
        cases alookup symbol st.prevShortAbove with
        | none => exact Or.inl ⟨rfl, rfl⟩
        | some prev =>
          dsimp only
          split_ifs with h1 h2
          · exact Or.inr ⟨_, rfl, rfl, rfl, cooldown_false_le hcb, rfl⟩
          · exact Or.inr ⟨_, rfl, rfl, rfl, cooldown_false_le hcb, rfl⟩
          · exact Or.inl ⟨rfl, rfl⟩

theorem rsiOnTick_cooldownStep (p : StratParams) (st : StratState)
    (symbol : String) (price : ℚ) (inds : List (String × ℚ)) (now : ℚ) :
    CooldownStep p st symbol now (rsiOnTick p st symbol price inds now) := by
  unfold CooldownStep rsiOnTick
  rcases hret : rsiCalc p st symbol price with ⟨o, st1⟩
  have hlst : st1.lastSignalTime = st.lastSignalTime := by
    have h := rsiCalc_lastSignalTime p st symbol price
    rw [hret] at h
    exact h
  cases o with
  | none => exact Or.inl ⟨rfl, hlst⟩
  | some rsi =>
    dsimp only
    rw [inCooldown_congr hlst]
    cases hcb : inCooldown p st symbol now with
    | true =>
      rw [if_pos rfl]
      exact Or.inl ⟨rfl, hlst⟩
    | false =>
      rw [if_neg (by simp)]
      split_ifs with h1 h2
      · exact Or.inr ⟨_, rfl, rfl, rfl, cooldown_false_le hcb,
          by simp [recordSignal, hlst]⟩
      · exact Or.inr ⟨_, rfl, rfl, rfl, cooldown_false_le hcb,
          by simp [recordSignal, hlst]⟩
      · exact Or.inl ⟨rfl, hlst⟩

theorem alookupD_aset_same (k : String) (v : α) (l : List (String × α)) (d : α) :
    alookupD k (aset k v l) d = v := by
  unfold alookupD
  rw [alookup_aset_same]
  rfl

theorem alookupD_aset_other {k k' : String} (h : k ≠ k') (v : α)
    (l : List (String × α)) (d : α) :
    alookupD k (aset k' v l) d = alookupD k l d := by
  unfold alookupD
  rw [alookup_aset_other h]

theorem onTick_cooldownStep (k : StratKind) (hk : k ≠ .buyAndHold)
    (p : StratParams) (st : StratState) (symbol : String) (price : ℚ)
    (inds : List (String × ℚ)) (now : ℚ) :
    CooldownStep p st symbol now (onTick k p st symbol price inds now) := by
  cases k with
  | smaCrossover => exact smaOnTick_cooldownStep p st symbol price inds now
  | rsi => exact rsiOnTick_cooldownStep p st symbol price inds now
  | momentum => exact momentumOnTick_cooldownStep p st symbol price inds now
  | meanReversion => exact meanRevOnTick_cooldownStep p st symbol price inds now
  | buyAndHold => exact absurd rfl hk

theorem onBar_nonbh (k : StratKind) (hk : k ≠ .buyAndHold) (p : StratParams)
    (st : StratState) (symbol : String) (close : ℚ) (inds : List (String × ℚ))
    (now : ℚ) : onBar k p st symbol close inds now = (none, st) := by
  cases k with
  | buyAndHold => exact absurd rfl hk
  | smaCrossover => rfl
  | rsi => rfl
  | momentum => rfl
  | meanReversion => rfl

theorem runCalls_cooldown_chain (k : StratKind) (hk : k ≠ .buyAndHold)
    (p : StratParams) (s : String) :
    ∀ (calls : List StratCall) (st : StratState),
      List.Chain' (fun a b => p.cooldownSeconds ≤ b - a)
        (alookupD s st.lastSignalTime 0 ::
          emissionTimes (runCalls k p st calls).2 s) := by
  intro calls
  induction calls with
  | nil =>
    intro st
    simp only [runCalls, emissionTimes, List.filter_nil, List.map_nil]
    exact List.chain'_singleton _
  | cons c rest ih =>
    intro st
    simp only [runCalls]
    by_cases hbar : c.isBar
    · rw [if_pos hbar, onBar_nonbh k hk]
      simpa [emissionTimes] using ih st
    · rw [if_neg hbar]
      rcases onTick_cooldownStep k hk p st c.symbol c.price c.inds c.now with
        ⟨hn, hl⟩ | ⟨sig, hsome, hsym, hts, hsep, hl⟩
      · rw [hn]
        have h := ih (onTick k p st c.symbol c.price c.inds c.now).2
        rw [hl] at h
        simpa [emissionTimes] using h
      · rw [hsome]
        by_cases hss : c.symbol = s
        · subst hss
          have h := ih (onTick k p st c.symbol c.price c.inds c.now).2
          rw [hl, alookupD_aset_same] at h
          have het : emissionTimes
              ([sig] ++ (runCalls k p (onTick k p st c.symbol c.price c.inds c.now).2 rest).2)
              c.symbol
              = c.now :: emissionTimes
                  (runCalls k p (onTick k p st c.symbol c.price c.inds c.now).2 rest).2
                  c.symbol := by
            simp [emissionTimes, hsym, hts]
          rw [het]
          exact List.chain'_cons.mpr ⟨hsep, h⟩
        · have h := ih (onTick k p st c.symbol c.price c.inds c.now).2
          rw [hl, alookupD_aset_other (fun hh => hss hh.symm)] at h
          have het : emissionTimes
              ([sig] ++ (runCalls k p (onTick k p st c.symbol c.price c.inds c.now).2 rest).2) s
              = emissionTimes
                  (runCalls k p (onTick k p st c.symbol c.price c.inds c.now).2 rest).2 s := by
            simp [emissionTimes, hsym, hss]
          rw [het]
          exact h

theorem buyHoldOnTick_char (p : StratParams) (st : StratState) (symbol : String)
    (price : ℚ) (inds : List (String × ℚ)) (now : ℚ) :
    (buyHoldOnTick p st symbol price inds now = (none, st)) ∨
    (symbol ∉ st.bought ∧
     buyHoldOnTick p st symbol price inds now =
       (some (makeSignal p SignalType.buy symbol price
          "Buy and hold initial purchase" now),
        { st with bought := symbol :: st.bought })) := by
  unfold buyHoldOnTick
  by_cases hb : symbol ∈ st.bought
  · rw [if_pos hb]
    exact Or.inl rfl
  · rw [if_neg hb]
    split_ifs with h1
    · exact Or.inr ⟨hb, rfl⟩
    · exact Or.inl rfl

theorem runCalls_buyhold_count (p : StratParams) (s : String) :
    ∀ (calls : List StratCall) (st : StratState),
      (emissionTimes (runCalls .buyAndHold p st calls).2 s).length ≤
        (if s ∈ st.bought then 0 else 1) := by
  intro calls
  induction calls with
  | nil =>
    intro st
    simp only [runCalls, emissionTimes, List.filter_nil, List.map_nil,
      List.length_nil]
    split <;> omega
  | cons c rest ih =>
    intro st
    simp only [runCalls]
    have hr : (if c.isBar then onBar .buyAndHold p st c.symbol c.price c.inds c.now
        else onTick .buyAndHold p st c.symbol c.price c.inds c.now)
        = buyHoldOnTick p st c.symbol c.price c.inds c.now := by
      split <;> rfl
    rw [hr]
    rcases buyHoldOnTick_char p st c.symbol c.price c.inds c.now with
      hcase | ⟨hnb, hcase⟩
    · rw [hcase]
      simpa [emissionTimes] using ih st
    · rw [hcase]
      by_cases hss : c.symbol = s
      · subst hss
        rw [if_neg hnb]
        have htail := ih { st with bought := c.symbol :: st.bought }
        rw [if_pos (by simp)] at htail
        have het : emissionTimes
            ([makeSignal p SignalType.buy c.symbol c.price
                "Buy and hold initial purchase" c.now] ++
              (runCalls .buyAndHold p { st with bought := c.symbol :: st.bought } rest).2)
            c.symbol
            = c.now :: emissionTimes
                (runCalls .buyAndHold p { st with bought := c.symbol :: st.bought } rest).2
                c.symbol := by
          simp [emissionTimes, makeSignal]
        rw [het]
        simp only [List.length_cons]
        omega
      · have htail := ih { st with bought := c.symbol :: st.bought }
        have hmem : (if s ∈ c.symbol :: st.bought then 0 else 1)
            = (if s ∈ st.bought then 0 else 1) := by
          by_cases hsb : s ∈ st.bought
          · rw [if_pos hsb, if_pos (List.mem_cons_of_mem _ hsb)]
          · rw [if_neg hsb, if_neg ?_]
            intro hmem'
            rcases List.mem_cons.mp hmem' with h' | h'
            · exact hss h'.symm
            · exact hsb h'
        rw [hmem] at htail
        have het : emissionTimes
            ([makeSignal p SignalType.buy c.symbol c.price
                "Buy and hold initial purchase" c.now] ++
              (runCalls .buyAndHold p { st with bought := c.symbol :: st.bought } rest).2) s
            = emissionTimes
                (runCalls .buyAndHold p { st with bought := c.symbol :: st.bought } rest).2
                s := by
          simp [emissionTimes, makeSignal, hss]
        rw [het]
        exact htail

theorem chain'_of_short {R : ℚ → ℚ → Prop} {l : List ℚ} (h : l.length ≤ 1) :
    List.Chain' R l := by
  match l with
  | [] => exact List.chain'_nil
  | [x] => exact List.chain'_singleton x
  | x :: y :: rest => simp at h

/-- C7 [confirmed]: for every strategy variant, parameter set and call
sequence, the timestamps of consecutively emitted signals for any fixed
symbol are at least `cooldown_seconds` apart.  The four indicator
strategies enforce this through `in_cooldown` / `record_signal`;
buy-and-hold never emits twice for a symbol thanks to its `bought` set,
making the separation vacuous. -/
theorem claim_C7 (k : StratKind) (p : StratParams) (symbol : String)
    (calls : List StratCall) :
    List.Chain' (fun a b => p.cooldownSeconds ≤ b - a)
      (emissionTimes (runCalls k p initStratState calls).2 symbol) := by
  by_cases hk : k = .buyAndHold
  · subst hk
    apply chain'_of_short
    have h := runCalls_buyhold_count p symbol calls initStratState
    simpa [initStratState] using h
  · exact (runCalls_cooldown_chain k hk p symbol calls initStratState).tail

/-! ## C9 and C2: order-manager rejection frame and rate limit -/

theorem submit_char (cfg : OMConfig) (st : OMState) (r : SubmitReq) :
    ((submit cfg st r).1 = none ∧
     (submit cfg st r).2 = { st with ordersThisMinute := prunedOrders st r.now }) ∨
    ((submit cfg st r).1 = some r.resp ∧
     (prunedOrders st r.now).length < cfg.maxOrdersPerMinute ∧
     (submit cfg st r).2 = { st with
        ordersThisMinute := prunedOrders st r.now ++ [r.now],
        lastOrderTime := aset r.signal.symbol r.now st.lastOrderTime }) := by
  simp only [submit]
  split_ifs with h1 h2 h3 h4 h5
  · exact Or.inl ⟨rfl, rfl⟩
  · exact Or.inl ⟨rfl, rfl⟩
  · exact Or.inl ⟨rfl, rfl⟩
  · exact Or.inl ⟨rfl, rfl⟩
  · exact Or.inr ⟨rfl, not_le.mp h1, rfl⟩
  · exact Or.inl ⟨rfl, rfl⟩

/-- C9 [confirmed]: whenever `OrderManager.submit` returns `None` — rate
limit, per-symbol cooldown, position cap, sell without position, or HTTP
failure — `last_order_time` is unchanged and the recorded submission
timestamps inside the trailing 60-second window are unchanged (the only
mutation is dropping entries that had already aged out of the window). -/
theorem claim_C9 (cfg : OMConfig) (st : OMState) (r : SubmitReq)
    (h : (submit cfg st r).1 = none) :
    (submit cfg st r).2.lastOrderTime = st.lastOrderTime ∧
    (submit cfg st r).2.ordersThisMinute.filter (fun t => decide (r.now - t < 60))
      = st.ordersThisMinute.filter (fun t => decide (r.now - t < 60)) := by
  rcases submit_char cfg st r with ⟨hn, hshape⟩ | ⟨hs, _, _⟩
  · rw [hshape]
    refine ⟨rfl, ?_⟩
    show (prunedOrders st r.now).filter _ = _
    unfold prunedOrders
    rw [List.filter_filter]
    apply List.filter_congr
    intro a _
    rw [Bool.and_self]
  · rw [hs] at h
    simp at h

/-- C9 witness: a manager with `max_orders_per_minute = 0` rejects a
fresh submission and leaves its state untouched. -/
theorem claim_C9_witness :
    (submit ⟨1/4, 0, 5⟩ ⟨[], [], 0, []⟩
        ⟨⟨SignalType.buy, "AAPL", "mom", "buy", 10, 100⟩, 50, 100, true,
          ⟨"oid", none⟩⟩).2.lastOrderTime = ([] : List (String × ℚ)) ∧
    (submit ⟨1/4, 0, 5⟩ ⟨[], [], 0, []⟩
        ⟨⟨SignalType.buy, "AAPL", "mom", "buy", 10, 100⟩, 50, 100, true,
          ⟨"oid", none⟩⟩).2.ordersThisMinute.filter (fun t => decide ((100:ℚ) - t < 60))
      = ([] : List ℚ).filter (fun t => decide ((100:ℚ) - t < 60)) :=
  claim_C9 ⟨1/4, 0, 5⟩ ⟨[], [], 0, []⟩
    ⟨⟨SignalType.buy, "AAPL", "mom", "buy", 10, 100⟩, 50, 100, true, ⟨"oid", none⟩⟩
    rfl

theorem runSubmits_window (cfg : OMConfig) (w : ℚ) :
    ∀ (reqs : List SubmitReq) (st : OMState) (prev : List ℚ) (n0 : ℚ),
      st.ordersThisMinute = prev.filter (fun t => decide (n0 - t < 60)) →
      List.Chain' (· ≤ ·) (n0 :: reqs.map SubmitReq.now) →
      (prev.filter (fun t => inWindow w t)).length ≤ cfg.maxOrdersPerMinute →
      ((prev ++ (runSubmits cfg st reqs).2).filter (fun t => inWindow w t)).length
        ≤ cfg.maxOrdersPerMinute := by
  intro reqs
  induction reqs with
  | nil =>
    intro st prev n0 _ _ hprev
    simpa [runSubmits] using hprev
  | cons r rest ih =>
    intro st prev n0 hst hch hprev
    simp only [runSubmits]
    have hn0r : n0 ≤ r.now := (List.chain'_cons.mp hch).1
    have hch' : List.Chain' (· ≤ ·) (r.now :: rest.map SubmitReq.now) :=
      (List.chain'_cons.mp hch).2
    have hpruned : prunedOrders st r.now
        = prev.filter (fun t => decide (r.now - t < 60)) := by
      unfold prunedOrders
      rw [hst, List.filter_filter]
      apply List.filter_congr
      intro a _
      by_cases hra : r.now - a < 60
      · have : n0 - a < 60 := by linarith
        simp [hra, this]
      · simp [hra]
    rcases submit_char cfg st r with ⟨hn, hshape⟩ | ⟨hs, hlt, hshape⟩
    · rw [hn]
      dsimp only
      have hst' : (submit cfg st r).2.ordersThisMinute
          = prev.filter (fun t => decide (r.now - t < 60)) := by
        rw [hshape]
        exact hpruned
      have h := ih (submit cfg st r).2 prev r.now hst' hch' hprev
      simpa using h
    · rw [hs]
      dsimp only
      have hst' : (submit cfg st r).2.ordersThisMinute
          = (prev ++ [r.now]).filter (fun t => decide (r.now - t < 60)) := by
        rw [hshape]
        show prunedOrders st r.now ++ [r.now] = _
        rw [hpruned, List.filter_append]
        congr 1
        have : ((100:ℚ) - 100 < 60) := by norm_num
        simp only [List.filter_cons, List.filter_nil]
        rw [if_pos (by simp)]
      have hprev' : ((prev ++ [r.now]).filter (fun t => inWindow w t)).length
          ≤ cfg.maxOrdersPerMinute := by
        by_cases hwin : inWindow w r.now = true
        · have hwin' : w - r.now < 60 ∧ r.now ≤ w := by
            simpa [inWindow] using hwin
          have hmono : (prev.filter (fun t => inWindow w t)).length
              ≤ (prev.filter (fun t => decide (r.now - t < 60))).length := by
            apply length_filter_mono
            intro a _ ha
            have ha' : w - a < 60 ∧ a ≤ w := by simpa [inWindow] using ha
            simp only [decide_eq_true_eq]
            linarith [ha'.1, ha'.2, hwin'.1, hwin'.2]
          rw [hpruned] at hlt
          have hcnt : (prev.filter (fun t => inWindow w t)).length
              < cfg.maxOrdersPerMinute := lt_of_le_of_lt hmono hlt
          rw [List.filter_append]
          simp only [List.filter_cons, List.filter_nil, hwin, if_pos,
            List.length_append, List.length_cons, List.length_nil]
          omega
        · rw [List.filter_append]
          have : List.filter (fun t => inWindow w t) [r.now] = [] := by
            simp only [List.filter_cons, List.filter_nil]
            rw [if_neg (by simp [hwin])]
          rw [this, List.append_nil]
          exact hprev
      have h := ih (submit cfg st r).2 (prev ++ [r.now]) r.now hst' hch' hprev'
      simpa [List.append_assoc] using h

/-- C2 [confirmed]: for an order manager created fresh (empty
`orders_this_minute`) with `max_orders_per_minute = K`, and any sequence
of `submit` calls at non-decreasing clock times, the number of
successful submissions whose times lie inside any trailing 60-second
window `(w - 60, w]` is at most `K`.  Each success requires the pruned
trailing list — exactly the earlier successes within the last 60 s — to
have fewer than `K` entries. -/
theorem claim_C2 (cfg : OMConfig) (st0 : OMState) (reqs : List SubmitReq) (w : ℚ)
    (hinit : st0.ordersThisMinute = [])
    (hmono : List.Chain' (fun a b => a.now ≤ b.now) reqs) :
    ((runSubmits cfg st0 reqs).2.filter (fun t => inWindow w t)).length
      ≤ cfg.maxOrdersPerMinute := by
  cases reqs with
  | nil => simp [runSubmits]
  | cons r rest =>
    have hch : List.Chain' (· ≤ ·) (r.now :: (r :: rest).map SubmitReq.now) := by
      rw [List.map_cons]
      refine List.chain'_cons.mpr ⟨le_refl _, ?_⟩
      rw [← List.map_cons]
      exact (List.chain'_map SubmitReq.now).mpr hmono
    have h := runSubmits_window cfg w (r :: rest) st0 [] r.now
      (by simp [hinit]) hch (by simp)
    simpa using h

/-- C2 witness: `K = 1`, two buy submissions at times 100 and 130 from a
fresh manager — at most one success lands in the window ending at 130. -/
theorem claim_C2_witness :
    ((runSubmits ⟨1, 1, 0⟩ ⟨[], [], 0, []⟩
        [⟨⟨SignalType.buy, "AAPL", "mom", "buy", 10, 100⟩, 50, 100, true, ⟨"o1", none⟩⟩,
         ⟨⟨SignalType.buy, "MSFT", "mom", "buy", 10, 130⟩, 50, 130, true, ⟨"o2", none⟩⟩]).2.filter
      (fun t => inWindow 130 t)).length ≤ (1:ℕ) :=
  claim_C2 ⟨1, 1, 0⟩ ⟨[], [], 0, []⟩
    [⟨⟨SignalType.buy, "AAPL", "mom", "buy", 10, 100⟩, 50, 100, true, ⟨"o1", none⟩⟩,
     ⟨⟨SignalType.buy, "MSFT", "mom", "buy", 10, 130⟩, 50, 130, true, ⟨"o2", none⟩⟩]
    130 rfl (by simp [List.chain'_cons]; norm_num)

/-! ## C1: scheduled-engine cash and position bookkeeping -/

theorem alookup_aupdate_same (k : String) (v : α) (l : List (String × α)) :
    alookup k (aupdate k v l) = (alookup k l).map (fun _ => v) := by
  induction l with
  | nil => rfl
  | cons e rest ih =>
    obtain ⟨ek, ev⟩ := e
    simp only [aupdate, List.map_cons] at ih ⊢
    by_cases h : ek = k
    · subst h
      rw [if_pos rfl]
      simp [alookup]
    · rw [if_neg h]
      simp only [alookup]
      rw [if_neg (fun hh => h hh.symm), if_neg (fun hh => h hh.symm)]
      exact ih

theorem plookup_pupdate_same (k : String × String) (v : α)
    (l : List ((String × String) × α)) :
    plookup k (pupdate k v l) = (plookup k l).map (fun _ => v) := by
  induction l with
  | nil => rfl
  | cons e rest ih =>
    obtain ⟨ek, ev⟩ := e
    simp only [pupdate, List.map_cons] at ih ⊢
    by_cases h : ek = k
    · subst h
      rw [if_pos rfl]
      simp [plookup]
    · rw [if_neg h]
      simp only [plookup]
      rw [if_neg (fun hh => h hh.symm), if_neg (fun hh => h hh.symm)]
      exact ih

theorem plookup_append_single {k : String × String} {v : α}
    {l : List ((String × String) × α)} (h : plookup k l = none) :
    plookup k (l ++ [(k, v)]) = some v := by
  induction l with
  | nil => simp [plookup]
  | cons e rest ih =>
    obtain ⟨ek, ev⟩ := e
    simp only [plookup, List.cons_append] at h ⊢
    split_ifs at h ⊢ with he
    exact ih h

theorem plookup_pdelAll (k : String × String)
    (l : List ((String × String) × α)) :
    plookup k (pdelAll k l) = none := by
  induction l with
  | nil => rfl
  | cons e rest ih =>
    obtain ⟨ek, ev⟩ := e
    simp only [pdelAll, List.filter_cons] at ih ⊢
    by_cases h : ek = k
    · rw [if_neg (by simp [h])]
      exact ih
    · rw [if_pos (by simp [h])]
      simp only [plookup]
      rw [if_neg (fun hh => h hh.symm)]
      exact ih

/-- C1 [confirmed]: in the scheduled engine, a committed BUY of quantity
`q` booked at fill price `p` (the broker's `filled_avg_price`, else the
fetched bar close) decreases the algorithm's cash by exactly `q * p` and
increases the `(algorithm_id, symbol)` position quantity by `q`
(creating the row at average entry `p` when absent); a committed SELL of
`q ≤ held` at fill price `p` increases cash by exactly `q * p` and
decreases the quantity by `q`, the row being deleted when it reaches 0.
The cash row must exist (`update_algorithm_cash` is a SQL UPDATE);
quantities are the source's Python ints. -/
theorem claim_C1 (aid sym : String) (q : ℤ) (res : BrokerOrder) (bars : List Bar)
    (currentPrice : ℚ) (store : Store) (c0 : ℚ)
    (hc : alookup aid store.cash = some c0) :
    (alookup aid (update_position_buy aid sym q res bars store).cash
        = some (c0 - (q : ℚ) * buyFillPrice res bars) ∧
      (∀ ex, plookup (aid, sym) store.positions = some ex →
        (plookup (aid, sym) (update_position_buy aid sym q res bars store).positions).map
            PositionRow.quantity = some (ex.quantity + q)) ∧
      (plookup (aid, sym) store.positions = none →
        plookup (aid, sym) (update_position_buy aid sym q res bars store).positions
          = some ⟨q, buyFillPrice res bars⟩)) ∧
    (∀ ex, plookup (aid, sym) store.positions = some ex → 0 < q → q ≤ ex.quantity →
      (alookup aid (update_position_sell aid sym q res currentPrice store).cash
          = some (c0 + (q : ℚ) * sellFillPrice res currentPrice) ∧
        (q = ex.quantity →
          plookup (aid, sym)
            (update_position_sell aid sym q res currentPrice store).positions = none) ∧
        (q < ex.quantity →
          plookup (aid, sym)
            (update_position_sell aid sym q res currentPrice store).positions
            = some ⟨ex.quantity - q, ex.avg_entry_price⟩))) := by
  have hcash : getAlgorithmCash store aid = c0 := by
    unfold getAlgorithmCash alookupD
    rw [hc]
    rfl
  refine ⟨⟨?_, ?_, ?_⟩, ?_⟩
  · unfold update_position_buy
    cases hpos : plookup (aid, sym) store.positions <;>
      simp [alookup_aupdate_same, hc, hcash]
  · intro ex hex
    unfold update_position_buy
    rw [hex]
    simp only
    rw [plookup_pupdate_same, hex]
    rfl
  · intro hnone
    unfold update_position_buy
    rw [hnone]
    simp only
    rw [plookup_append_single hnone]
  · intro ex hex hqpos hqle
    unfold update_position_sell
    rw [hex]
    simp only
    refine ⟨by simp [alookup_aupdate_same, hc, hcash], ?_, ?_⟩
    · intro heq
      rw [if_pos (by omega)]
      exact plookup_pdelAll _ _
    · intro hlt
      rw [if_neg (by omega)]
      rw [plookup_pupdate_same, hex]
      rfl

/-- C1 witness: starting cash 1000, BUY 5 at fill price 100 leaves cash
500 and a 5-share row; from that state a SELL 5 at fill price 110 leaves
cash 1050 and deletes the row (spec scenario 7). -/
theorem claim_C1_witness :
    (alookup "a1" (update_position_buy "a1" "AAPL" 5 ⟨"o1", some 100⟩ []
        ⟨[], [("a1", 1000)]⟩).cash = some ((1000:ℚ) - (5:ℤ) * buyFillPrice ⟨"o1", some 100⟩ []) ∧
      plookup ("a1", "AAPL") (update_position_buy "a1" "AAPL" 5 ⟨"o1", some 100⟩ []
        ⟨[], [("a1", 1000)]⟩).positions = some ⟨5, buyFillPrice ⟨"o1", some 100⟩ []⟩) ∧
    (alookup "a1" (update_position_sell "a1" "AAPL" 5 ⟨"o2", some 110⟩ 108
        ⟨[(("a1", "AAPL"), ⟨5, 100⟩)], [("a1", 500)]⟩).cash
        = some ((500:ℚ) + (5:ℤ) * sellFillPrice ⟨"o2", some 110⟩ 108) ∧
      plookup ("a1", "AAPL") (update_position_sell "a1" "AAPL" 5 ⟨"o2", some 110⟩ 108
        ⟨[(("a1", "AAPL"), ⟨5, 100⟩)], [("a1", 500)]⟩).positions = none) := by
  have hbuy := claim_C1 "a1" "AAPL" 5 ⟨"o1", some 100⟩ [] 108 ⟨[], [("a1", 1000)]⟩ 1000 rfl
  have hsell := claim_C1 "a1" "AAPL" 5 ⟨"o2", some 110⟩ []  108
    ⟨[(("a1", "AAPL"), ⟨5, 100⟩)], [("a1", 500)]⟩ 500 rfl
  refine ⟨⟨hbuy.1.1, ?_⟩, ?_, ?_⟩
  · exact hbuy.1.2.2 rfl
  · exact (hsell.2 ⟨5, 100⟩ rfl (by norm_num) (by norm_num)).1
  · exact (hsell.2 ⟨5, 100⟩ rfl (by norm_num) (by norm_num)).2.1 rfl

end PaperTrading
